import Mathlib

/-!
Verification development for the CasperJS tester module
(src/modules/tester.js).

The file shallowly embeds the parts of tester.js that the specification
talks about: the structural equality comparator (testEquals), the
assertion engine (assert, assertEquals, assertMatch, assertNot, pass,
fail, assertRaises), the Tester state (currentTestFile, running,
testResults), suite discovery (findTestFiles), the run entry point
(runSuites) and the completion-polling scheduler (setInterval loop with
done()).

JavaScript values are modelled by the inductive JSValue.  Numbers are
modelled as integers plus a separate NaN constructor: the only numeric
operation the embedded code performs, strict equality ===, is captured
exactly by this model (NaN === x is false for every x, including NaN
itself).  Objects are association lists of own enumerable keys in
insertion order; a genuine JS object never has two identical own keys,
so theorems about objects carry a duplicate-free-keys side condition
where they need one.
-/

namespace CasperTester

/-- Model of a JavaScript value, as far as tester.js inspects values. -/
inductive JSValue where
  | null
  | undefined
  | bool (b : Bool)
  | num (n : Int)
  | nan
  | str (s : String)
  | fn (src : String)
  | arr (elems : List JSValue)
  | obj (fields : List (String × JSValue))

/-- Modelled from the spec: utils.betterTypeOf (utils.js is not part of
src/) returns a refined type tag distinguishing at minimum null,
undefined, boolean, number, string, array, function and plain object. -/
def betterTypeOf : JSValue → String
  | .null => "null"
  | .undefined => "undefined"
  | .bool _ => "boolean"
  | .num _ => "number"
  | .nan => "number"
  | .str _ => "string"
  | .fn _ => "function"
  | .arr _ => "array"
  | .obj _ => "object"

/-- Modelled from the spec: utils.isFunction (utils.js is not part of
src/) recognizes function values. -/
def isFunctionV : JSValue → Bool
  | .fn _ => true
  | _ => false

/-- JavaScript strict equality === on the values testEquals can reach it
with (primitives: null, undefined, boolean, number, string).  NaN is not
strictly equal to anything, itself included.  For reference types ===
compares references; testEquals never reaches === with two reference
values of equal type tag (functions are intercepted by the isFunction
branch, arrays and objects by the instanceof Object branch), so those
cases are modelled as false, the value for two distinct references. -/
def strictEq : JSValue → JSValue → Bool
  | .null, .null => true
  | .undefined, .undefined => true
  | .bool a, .bool b => a == b
  | .num a, .num b => a == b
  | .str a, .str b => a == b
  | _, _ => false

/-- JavaScript property lookup v2[k] on an object modelled as an
association list of own keys: the first binding of k, or undefined when
the key is absent. -/
def lookup (fields : List (String × JSValue)) (k : String) : JSValue :=
  match fields.find? (fun p => p.1 == k) with
  | some p => p.2
  | none => .undefined

mutual

/-- Embedding of Tester#testEquals (tester.js lines 526-545):
1. differing refined type tags give false;
2. two functions compare by source text (toString());
3. two composite values (both instanceof Object) compare by own-key
   count of each side followed by a loop over the keys of the first
   value, recursively comparing v1[k] with v2[k];
4. otherwise strict equality ===.
For arrays the key loop runs over the indices of the first array and
reads the second at the same index (undefined when out of range); the
key-count guard is the length comparison. -/
def testEquals (v1 v2 : JSValue) : Bool :=
  if betterTypeOf v1 != betterTypeOf v2 then false
  else if isFunctionV v1 then
    match v1, v2 with
    | .fn s1, .fn s2 => s1 == s2
    | _, _ => false
  else
    match v1, v2 with
    | .arr xs, .arr ys => (xs.length == ys.length) && testEqualsList xs ys
    | .obj f1, .obj f2 => (f1.length == f2.length) && testEqualsFields f1 f2
    | a, b => strictEq a b

/-- The for-in loop of testEquals specialised to arrays: iterate the
indices of the first array, reading the second array at each index
(undefined past its end). -/
def testEqualsList : List JSValue → List JSValue → Bool
  | [], _ => true
  | x :: xs, ys => testEquals x (ys.headD .undefined) && testEqualsList xs ys.tail

/-- The for-in loop of testEquals over the keys of the first object:
for every binding (k, x) of v1, recursively compare x with v2[k]. -/
def testEqualsFields : List (String × JSValue) → List (String × JSValue) → Bool
  | [], _ => true
  | (k, x) :: rest, f2 => testEquals x (lookup f2 k) && testEqualsFields rest f2

end

/-- JavaScript truthiness, used by assertNot through the negation
operator !condition. -/
def truthy : JSValue → Bool
  | .null => false
  | .undefined => false
  | .bool b => b
  | .num n => n != 0
  | .nan => false
  | .str s => s != ""
  | .fn _ => true
  | .arr _ => true
  | .obj _ => true

/-- String suffix test, written over the character list so that it
evaluates on concrete paths. -/
def strEndsWith (path post : String) : Bool :=
  post.toList.isSuffixOf path.toList

/-- Modelled from the spec: utils.isJsFile (utils.js is not part of
src/) recognizes runnable script files by their .js or .coffee
extension. -/
def isJsFile (path : String) : Bool :=
  strEndsWith path ".js" || strEndsWith path ".coffee"

/-- One stored failure: the emitted fail event carries the message and
the current test file, and the fail listener registered in the Tester
constructor pushes exactly that record onto testResults.failures. -/
structure FailureRecord where
  message : JSValue
  file : Option String

/-- The testResults property initialised in the Tester constructor
(tester.js lines 60-64). -/
structure TestResults where
  passed : Nat
  failed : Nat
  failures : List FailureRecord

/-- The mutable Tester state the claims are about: currentTestFile and
running from the constructor (tester.js lines 45-46) and the
testResults record. -/
structure Tester where
  currentTestFile : Option String
  running : Bool
  testResults : TestResults

/-- A freshly constructed Tester: currentTestFile = null,
running = false, zeroed results. -/
def initTester : Tester :=
  { currentTestFile := none
    running := false
    testResults := { passed := 0, failed := 0, failures := [] } }

/-- Embedding of Tester#assert (tester.js lines 83-102).  The strict
comparison condition === true selects the branch; the passing branch
increments passed, the failing branch increments failed and (through
the synchronous fail listener) appends a FailureRecord carrying the
message and currentTestFile.  The JS function body has no return
statement, so its JS return value is undefined; the pair returned here
is (updated state, JS return value). -/
def assert (t : Tester) (condition message : JSValue) : Tester × JSValue :=
  let t1 :=
    if strictEq condition (.bool true) then
      { t with testResults := { t.testResults with
          passed := t.testResults.passed + 1 } }
    else
      { t with testResults := { t.testResults with
          failed := t.testResults.failed + 1,
          failures := t.testResults.failures ++
            [{ message := message, file := t.currentTestFile }] } }
  (t1, JSValue.undefined)

/-- The state effect of assert. -/
def assertRun (t : Tester) (condition message : JSValue) : Tester :=
  (assert t condition message).1

/-- Embedding of Tester#assertEquals (tester.js lines 111-130): truth is
delegated to testEquals; the branches update the counters directly and
the fail branch appends a FailureRecord through the fail listener. -/
def assertEquals (t : Tester) (testValue expected message : JSValue) : Tester :=
  if testEquals testValue expected then
    { t with testResults := { t.testResults with
        passed := t.testResults.passed + 1 } }
  else
    { t with testResults := { t.testResults with
        failed := t.testResults.failed + 1,
        failures := t.testResults.failures ++
          [{ message := message, file := t.currentTestFile }] } }

/-- Embedding of Tester#assertMatch (tester.js lines 172-191): truth is
pattern.test(subject); the RegExp collaborator is modelled as the
predicate it denotes. -/
def assertMatch (t : Tester) (subject : String) (pattern : String → Bool)
    (message : JSValue) : Tester :=
  if pattern subject then
    { t with testResults := { t.testResults with
        passed := t.testResults.passed + 1 } }
  else
    { t with testResults := { t.testResults with
        failed := t.testResults.failed + 1,
        failures := t.testResults.failures ++
          [{ message := message, file := t.currentTestFile }] } }

/-- Embedding of Tester#assertNot (tester.js lines 199-201):
assert(!condition, message) where ! negates JS truthiness. -/
def assertNot (t : Tester) (condition message : JSValue) : Tester :=
  assertRun t (.bool (!truthy condition)) message

/-- Embedding of Tester#pass (tester.js lines 398-400):
assert(true, message). -/
def pass (t : Tester) (message : JSValue) : Tester :=
  assertRun t (.bool true) message

/-- Embedding of Tester#fail (tester.js lines 341-343):
assert(false, message). -/
def fail (t : Tester) (message : JSValue) : Tester :=
  assertRun t (.bool false) message

/-- Embedding of Tester#done (tester.js lines 298-300): sets running to
false. -/
def done (t : Tester) : Tester :=
  { t with running := false }

/-- A JS callable passed to assertRaises: applied to its argument list
it either returns a value or throws one. -/
def JSCallable : Type := List JSValue → Except JSValue JSValue

/-- Embedding of Tester#assertRaises (tester.js lines 211-218):
fn.apply(null, args) inside try; a normal return falls through to
this.fail(message), a throw is caught and answered by
this.pass(message).  The thrown value e is bound but never used. -/
def assertRaises (t : Tester) (fn : JSCallable) (args : List JSValue)
    (message : JSValue) : Tester :=
  match fn args with
  | .ok _ => fail t message
  | .error _ => pass t message

/-- One call to the assertion engine: the public assertion operations
and their wrappers, each carrying the arguments of the corresponding
tester.js method. -/
inductive AssertOp where
  | assertOp (condition message : JSValue)
  | assertEqualsOp (testValue expected message : JSValue)
  | assertMatchOp (subject : String) (pattern : String → Bool) (message : JSValue)
  | assertNotOp (condition message : JSValue)
  | passOp (message : JSValue)
  | failOp (message : JSValue)
  | assertRaisesOp (fn : JSCallable) (args : List JSValue) (message : JSValue)

/-- Dispatch of one assertion call to the embedded methods. -/
def applyOp (t : Tester) : AssertOp → Tester
  | .assertOp c m => assertRun t c m
  | .assertEqualsOp a b m => assertEquals t a b m
  | .assertMatchOp s p m => assertMatch t s p m
  | .assertNotOp c m => assertNot t c m
  | .passOp m => pass t m
  | .failOp m => fail t m
  | .assertRaisesOp fn args m => assertRaises t fn args m

/-- A sequence of assertion calls applied in order. -/
def applyOps (t : Tester) : List AssertOp → Tester
  | [] => t
  | op :: rest => applyOps (applyOp t op) rest

/-- Environment of one exec call: whether fs.isFile holds of the path,
and the effect of evaluating the file body.  The body receives the
Tester state (it may make assertions and call done) and returns the
state it leaves behind, plus the exception it threw, if any.
fs and phantom are collaborators outside src/. -/
structure ExecEnv where
  isFile : Bool
  body : Tester → Tester × Option JSValue

/-- Embedding of Tester#exec (tester.js lines 317-334).  No exec.file
filter is registered anywhere in the source, so the filter call yields
undefined and the or-expression keeps the argument.  The validity check
!fs.isFile(file) or !utils.isJsFile(file) throws a CasperError before
currentTestFile is assigned; the thrown path therefore carries the
unchanged state.  A valid file is assigned to currentTestFile and its
body evaluated; a body exception is caught and (modelled from the spec:
phantom.processScriptError invokes its callback with the error, phantom
is not part of src/) answered with self.fail(e) followed by
self.done(). -/
def exec (t : Tester) (env : ExecEnv) (file : String) :
    Except (String × Tester) Tester :=
  if !env.isFile || !isJsFile file then
    .error ("Can only exec() files with .js or .coffee extensions", t)
  else
    let t1 := { t with currentTestFile := some file }
    match env.body t1 with
    | (t2, none) => .ok t2
    | (t2, some e) => .ok (done (fail t2 e))

/-! ### Scheduler (runSuites polling loop, tester.js lines 487-517)

The interval callback reads the shared running flag: while running it
does nothing; when idle with files remaining it calls
runTest(testFiles[current]) and advances current; when idle with the
queue exhausted it renders results and clears the interval.  runTest
sets running = true and executes the file; a synchronous exception is
caught and converted into fail(e) followed by done().  done() is
otherwise invoked by the executing suite (or the step.error handler)
at some later tick of the event loop; the single-threaded host
interleaves interval callbacks and done calls arbitrarily, which the
SStep list models. -/

/-- Observable scheduler events, in chronological order. -/
inductive SEvent where
  | start (file : String)
  | doneEv
  | render
deriving DecidableEq

/-- Scheduler state: the shared running flag, the current index of the
polling closure, whether clearInterval has run, and the event trace. -/
structure SchedState where
  running : Bool
  current : Nat
  finished : Bool
  trace : List SEvent
deriving DecidableEq

/-- Initial scheduler state when runSuites installs the interval. -/
def initSched : SchedState :=
  { running := false, current := 0, finished := false, trace := [] }

/-- One scheduling occurrence: a timer tick of the interval callback
(crash records whether the started suite throws synchronously, in which
case runTest catches, fails and immediately signals done), or an
out-of-band done() call from the running suite. -/
inductive SStep where
  | tick (crash : Bool)
  | doneCall

/-- Transition function of the polling loop for a fixed discovered
queue q. -/
def stepS (q : List String) (s : SchedState) : SStep → SchedState
  | .doneCall => { s with running := false, trace := s.trace ++ [.doneEv] }
  | .tick crash =>
    if s.finished then s
    else if s.running then s
    else if s.current = q.length then
      { s with finished := true, trace := s.trace ++ [.render] }
    else
      let f := q.getD s.current ""
      if crash then
        { s with current := s.current + 1,
                 trace := s.trace ++ [.start f, .doneEv] }
      else
        { s with current := s.current + 1, running := true,
                 trace := s.trace ++ [.start f] }

/-- Run the scheduler from the initial state through a list of
occurrences. -/
def runSched (q : List String) (steps : List SStep) : SchedState :=
  steps.foldl (stepS q) initSched

/-- The files started, in order, extracted from a trace. -/
def startsOf : List SEvent → List String
  | [] => []
  | .start f :: rest => f :: startsOf rest
  | _ :: rest => startsOf rest

/-- Overlap check of a trace: scanning chronologically with the
idle/running flag, a start event is admissible only while idle and a
done event returns to idle; the result is the final flag, or none if
some suite was started while another was still running. -/
def wfRun : Bool → List SEvent → Option Bool
  | r, [] => some r
  | false, .start _ :: rest => wfRun true rest
  | true, .start _ :: _ => none
  | r, .render :: rest => wfRun r rest
  | _, .doneEv :: rest => wfRun false rest

/-! ### Suite discovery (findTestFiles, tester.js lines 350-368) and
the run entry point (runSuites, tester.js lines 468-500). -/

/-- A filesystem subtree as the fs collaborator reports it: every node
carries its absolute path, directories carry their listed entries in
listing order (the self and parent markers already excluded, as the
filter in findTestFiles does). -/
inductive FSTree where
  | file (path : String)
  | dir (path : String) (entries : List FSTree)

/-- The absolute path of a node. -/
def nodePath : FSTree → String
  | .file p => p
  | .dir p _ => p

/-- fs.isDirectory of a node. -/
def isDirNode : FSTree → Bool
  | .dir _ _ => true
  | .file _ => false

mutual

/-- Embedding of Tester#findTestFiles (tester.js lines 350-368).  A
non-directory argument returns [].  For a directory: entries is the
listing mapped to absolute paths; the forEach then walks the original
listing and, for each subdirectory, appends the recursive result of that
subdirectory at the end (entries = entries.concat(...)); finally
the whole accumulated list is filtered by the runnable-script extension
check.  The pathJoin/absolute mangling inside the final filter does not
change the extension the check looks at, so the filter is by isJsFile
of the accumulated path. -/
def findTestFiles : FSTree → List String
  | .file _ => []
  | .dir _ entries =>
      ((entries.map nodePath) ++ findTestFilesAux entries).filter isJsFile

/-- The forEach of findTestFiles: recursive results of the directory
entries, concatenated in listing order. -/
def findTestFilesAux : List FSTree → List String
  | [] => []
  | e :: rest =>
      (if isDirNode e then findTestFiles e else []) ++ findTestFilesAux rest

end

mutual

/-- Stated from the spec words for comparison with findTestFiles (claim
about ordering): depth-first traversal with each directory expanded in
place, keeping runnable files, the files of a subdirectory appearing at
the position of the subdirectory before later sibling entries. -/
def specResolveDir : FSTree → List String
  | .file p => if isJsFile p then [p] else []
  | .dir _ entries => specResolveList entries

/-- In-place expansion of a listing, per the spec words. -/
def specResolveList : List FSTree → List String
  | [] => []
  | e :: rest => specResolveDir e ++ specResolveList rest

end

mutual

/-- Well-formedness of a modelled subtree: no directory carries a path
that the extension check would take for a runnable script file (a
directory named x.js would be offered as a test file by the final
filter of findTestFiles). -/
def wfTree : FSTree → Bool
  | .file _ => true
  | .dir p entries => !isJsFile p && wfTreeList entries

/-- Well-formedness of a listing. -/
def wfTreeList : List FSTree → Bool
  | [] => true
  | e :: rest => wfTree e && wfTreeList rest

end

/-- One argument given to runSuites, as the fs collaborator classifies
it: a path that does not exist, an existing plain file, or an existing
directory with its subtree. -/
inductive PathArg where
  | missing (path : String)
  | fileArg (path : String)
  | dirArg (tree : FSTree)

/-- The testFiles list runSuites accumulates over its arguments
(tester.js lines 473-482): a directory contributes its findTestFiles
result, a plain file is pushed as passed, a missing path only warns. -/
def resolveArgs : List PathArg → List String
  | [] => []
  | .missing _ :: rest => resolveArgs rest
  | .fileArg p :: rest => p :: resolveArgs rest
  | .dirArg tr :: rest => findTestFiles tr ++ resolveArgs rest

/-- Observable events of the synchronous body of runSuites, in program
order. -/
inductive RunEv where
  | warnMissing (path : String)
  | barNoTests
  | exitEv (status : Nat)
  | intervalStart
  | runTestEv (file : String)
deriving DecidableEq

/-- The warning bars emitted while the arguments are classified. -/
def warnEvents : List PathArg → List RunEv
  | [] => []
  | .missing p :: rest => .warnMissing p :: warnEvents rest
  | _ :: rest => warnEvents rest

/-- Embedding of the synchronous body of Tester#runSuites (tester.js
lines 468-500).  No arguments throws CasperError("No test suite to
run").  Otherwise each argument is classified (a missing path draws a
RED_BAR warning) and testFiles is accumulated; if testFiles is empty
the body emits the RED_BAR banner "No test file found, aborting." and
calls casper.exit(1) - and then, the statement not being followed by a
return, falls through to the setInterval registration exactly as the
non-empty case does.  runTest is only ever called from inside the
interval callback, never from the synchronous body. -/
def runSuitesSync (args : List PathArg) : Except String (List RunEv) :=
  if args.length = 0 then .error "No test suite to run"
  else
    let testFiles := resolveArgs args
    let tail :=
      if testFiles.length = 0 then
        [RunEv.barNoTests, RunEv.exitEv 1, RunEv.intervalStart]
      else [RunEv.intervalStart]
    .ok (warnEvents args ++ tail)

/-- No key of the list equals k. -/
def keysFresh (k : String) : List (String × JSValue) → Bool
  | [] => true
  | q :: rest => (q.1 != k) && keysFresh k rest

/-- The keys of the association list are pairwise distinct, as the own
keys of a genuine JS object are. -/
def nodupKeys : List (String × JSValue) → Bool
  | [] => true
  | q :: rest => keysFresh q.1 rest && nodupKeys rest

mutual

/-- A modelled value that denotes a genuine non-cyclic JS value with no
NaN inside: NaN is excluded and every object level has pairwise
distinct keys. -/
def wfVal : JSValue → Bool
  | .nan => false
  | .arr xs => wfValList xs
  | .obj f => wfValFields f
  | _ => true

/-- wfVal over the elements of an array. -/
def wfValList : List JSValue → Bool
  | [] => true
  | x :: xs => wfVal x && wfValList xs

/-- wfVal over the bindings of an object, including key freshness. -/
def wfValFields : List (String × JSValue) → Bool
  | [] => true
  | q :: rest => keysFresh q.1 rest && wfVal q.2 && wfValFields rest

end

/-- Stated from the spec words for comparison with testEquals on plain
objects: same number of own keys, and every key present in one object
exists in the other with recursively equal values. -/
def specObjEq (f1 f2 : List (String × JSValue)) : Prop :=
  f1.length = f2.length ∧
  (∀ k, (k ∈ f1.map Prod.fst ∨ k ∈ f2.map Prod.fst) →
    k ∈ f1.map Prod.fst ∧ k ∈ f2.map Prod.fst ∧
    testEquals (lookup f1 k) (lookup f2 k) = true)

/-- The scheduler invariant: the started files are exactly the first
current entries of the queue in order, the trace never starts a suite
while one is running (and its final idle/running flag is the running
flag), the cursor never passes the queue, and the run only finishes
with the queue exhausted. -/
def SchedInv (q : List String) (s : SchedState) : Prop :=
  startsOf s.trace = q.take s.current ∧
  wfRun false s.trace = some s.running ∧
  s.current ≤ q.length ∧
  (s.finished = true → s.current = q.length)

/-- The concrete subtree refuting the in-place ordering claim: the
directory /t lists the subdirectory /t/sub (holding /t/sub/a.js) before
the plain file /t/b.js. -/
def exTree : FSTree :=
  .dir "/t" [.dir "/t/sub" [.file "/t/sub/a.js"], .file "/t/b.js"]

/-! ## Theorems -/

/-- C2: for every condition value c and message m, assert(c, m)
increments exactly one of passed/failed by one, leaving the other
unchanged, and it increments failed if and only if c is not strictly
the boolean true (c !== true). -/
theorem claim_C2_assert_counters (t : Tester) (c m : JSValue) :
    ((assertRun t c m).testResults.passed + (assertRun t c m).testResults.failed
      = t.testResults.passed + t.testResults.failed + 1) ∧
    ((assertRun t c m).testResults.failed = t.testResults.failed + 1 ↔
      ¬ strictEq c (.bool true) = true) ∧
    ((assertRun t c m).testResults.passed = t.testResults.passed + 1 ↔
      strictEq c (.bool true) = true) ∧
    (strictEq c (.bool true) = true →
      (assertRun t c m).testResults.failed = t.testResults.failed) ∧
    (¬ strictEq c (.bool true) = true →
      (assertRun t c m).testResults.passed = t.testResults.passed) := by
  cases hc : strictEq c (.bool true) <;>
    simp [assertRun, assert, hc] <;> omega

/-- Witness for C2 at the concrete condition 1 (a number, hence not
strictly equal to true): failed is incremented. -/
theorem claim_C2_witness :
    (assertRun initTester (.num 1) (.str "m")).testResults.failed = 1 := by
  have h := claim_C2_assert_counters initTester (.num 1) (.str "m")
  have h2 := h.2.1.mpr (by decide)
  simpa [initTester] using h2

/-- C9, counterexample: the claim says assert returns the boolean
outcome of the assertion; at the passing call assert(true, "m") the JS
return value is undefined, not the boolean true (the function body of
assert has no return statement). -/
theorem claim_C9_counterexample :
    (assert initTester (.bool true) (.str "m")).2 = JSValue.undefined ∧
    (assert initTester (.bool true) (.str "m")).2 ≠ JSValue.bool true := by
  refine ⟨rfl, fun h => ?_⟩
  exact JSValue.noConfusion h

/-- C9, amended: assert(c, m) always returns undefined (its body has no
return statement); the outcome is observable in the counters and
events, never in the return value. -/
theorem claim_C9_amended (t : Tester) (c m : JSValue) :
    (assert t c m).2 = JSValue.undefined ∧
    (assert t c m).2 ≠ JSValue.bool (strictEq c (.bool true)) := by
  refine ⟨rfl, fun h => ?_⟩
  exact JSValue.noConfusion h

/-- Witness for C9 at a concrete failing call. -/
theorem claim_C9_witness :
    (assert initTester (.bool false) (.str "w")).2 = JSValue.undefined :=
  (claim_C9_amended initTester (.bool false) (.str "w")).1

/-- C6: assertRaises(fn, args, m) invokes fn with args and records one
passing assertion exactly when the invocation throws, one failing
assertion exactly when it returns normally; the thrown value is
discarded - two callables that agree on whether they throw on args
yield identical Tester states. -/
theorem claim_C6_assertRaises (t : Tester) (fn : JSCallable)
    (args : List JSValue) (m : JSValue) :
    ((∃ e, fn args = .error e) →
      (assertRaises t fn args m).testResults.passed = t.testResults.passed + 1 ∧
      (assertRaises t fn args m).testResults.failed = t.testResults.failed) ∧
    ((∃ v, fn args = .ok v) →
      (assertRaises t fn args m).testResults.failed = t.testResults.failed + 1 ∧
      (assertRaises t fn args m).testResults.passed = t.testResults.passed) ∧
    (∀ gn : JSCallable, (fn args).isOk = (gn args).isOk →
      assertRaises t fn args m = assertRaises t gn args m) := by
  refine ⟨fun ⟨e, he⟩ => ?_, fun ⟨v, hv⟩ => ?_, fun gn hok => ?_⟩
  · simp [assertRaises, he, pass, assertRun, assert, strictEq]
  · simp [assertRaises, hv, fail, assertRun, assert, strictEq]
  · cases hf : fn args <;> cases hg : gn args <;>
      simp [hf, hg, Except.isOk, Except.toBool] at hok ⊢ <;>
      simp [assertRaises, hf, hg]

/-- Witness for C6 at a throwing callable: the pass counter moves. -/
theorem claim_C6_witness :
    (assertRaises initTester (fun _ => Except.error (JSValue.str "boom"))
      [] (.str "m")).testResults.passed = 1 := by
  have h := claim_C6_assertRaises initTester
    (fun _ => Except.error (JSValue.str "boom")) [] (.str "m")
  have h2 := h.1 ⟨JSValue.str "boom", rfl⟩
  simpa [initTester] using h2.1

/-- C10: exec(file) throws exactly when the path is not an existing
file with a .js/.coffee extension, and the thrown path carries the
Tester state unchanged (the validity check precedes the assignment to
currentTestFile), so a rejected exec never changes which file later
failures are attributed to. -/
theorem claim_C10_exec_guard (t : Tester) (env : ExecEnv) (file : String) :
    ((env.isFile = true ∧ isJsFile file = true) ↔ (exec t env file).isOk = true) ∧
    (∀ msg s2, exec t env file = .error (msg, s2) → s2 = t) := by
  constructor
  · constructor
    · intro ⟨h1, h2⟩
      simp [exec, h1, h2]
      cases henv : env.body { t with currentTestFile := some file } with
      | mk t2 err => cases err <;> simp [Except.isOk, Except.toBool]
    · intro hok
      by_cases h1 : env.isFile = true
      · by_cases h2 : isJsFile file = true
        · exact ⟨h1, h2⟩
        · simp [exec, h1, h2, Except.isOk, Except.toBool] at hok
      · simp [exec, h1, Except.isOk, Except.toBool] at hok
  · intro msg s2 herr
    by_cases h1 : env.isFile = true
    · by_cases h2 : isJsFile file = true
      · simp [exec, h1, h2] at herr
        cases henv : env.body { t with currentTestFile := some file } with
        | mk t2 err => rw [henv] at herr; cases err <;> simp at herr
      · simp [exec, h1, h2] at herr
        exact herr.2.symm
    · simp [exec, h1] at herr
      exact herr.2.symm

/-- Witness for C10 at a concrete valid file and a concrete invalid
one. -/
theorem claim_C10_witness :
    (exec initTester { isFile := true, body := fun s => (s, none) } "a.js").isOk
      = true ∧
    (∀ msg s2,
      exec initTester { isFile := false, body := fun s => (s, none) } "a.txt"
        = .error (msg, s2) → s2 = initTester) := by
  constructor
  · exact (claim_C10_exec_guard initTester
      { isFile := true, body := fun s => (s, none) } "a.js").1.mp ⟨rfl, by decide⟩
  · exact (claim_C10_exec_guard initTester
      { isFile := false, body := fun s => (s, none) } "a.txt").2

/-- Every assertion call either increments failed by one and appends
exactly one FailureRecord, or increments passed by one and leaves the
failures untouched; nothing else in testResults changes. -/
theorem applyOp_cases (t : Tester) (op : AssertOp) :
    (∃ rec, (applyOp t op).testResults =
      { passed := t.testResults.passed,
        failed := t.testResults.failed + 1,
        failures := t.testResults.failures ++ [rec] }) ∨
    ((applyOp t op).testResults =
      { passed := t.testResults.passed + 1,
        failed := t.testResults.failed,
        failures := t.testResults.failures }) := by
  cases op with
  | assertOp c m =>
    cases hc : strictEq c (.bool true)
    · exact .inl ⟨{ message := m, file := t.currentTestFile },
        by simp [applyOp, assertRun, assert, hc]⟩
    · exact .inr (by simp [applyOp, assertRun, assert, hc])
  | assertEqualsOp a b m =>
    cases hc : testEquals a b
    · exact .inl ⟨{ message := m, file := t.currentTestFile },
        by simp [applyOp, assertEquals, hc]⟩
    · exact .inr (by simp [applyOp, assertEquals, hc])
  | assertMatchOp s p m =>
    cases hc : p s
    · exact .inl ⟨{ message := m, file := t.currentTestFile },
        by simp [applyOp, assertMatch, hc]⟩
    · exact .inr (by simp [applyOp, assertMatch, hc])
  | assertNotOp c m =>
    cases hc : truthy c
    · exact .inr (by simp [applyOp, assertNot, assertRun, assert, hc, strictEq])
    · exact .inl ⟨{ message := m, file := t.currentTestFile },
        by simp [applyOp, assertNot, assertRun, assert, hc, strictEq]⟩
  | passOp m =>
    exact .inr (by simp [applyOp, pass, assertRun, assert, strictEq])
  | failOp m =>
    exact .inl ⟨{ message := m, file := t.currentTestFile },
      by simp [applyOp, fail, assertRun, assert, strictEq]⟩
  | assertRaisesOp fn args m =>
    cases hf : fn args with
    | ok v =>
      exact .inl ⟨{ message := m, file := t.currentTestFile },
        by simp [applyOp, assertRaises, hf, fail, assertRun, assert, strictEq]⟩
    | error e =>
      exact .inr (by simp [applyOp, assertRaises, hf, pass, assertRun, assert,
        strictEq])

/-- Aggregation invariant of a sequence of assertion calls, relative to
an arbitrary starting state. -/
theorem applyOps_inv (ops : List AssertOp) (t : Tester) :
    ((applyOps t ops).testResults.passed + (applyOps t ops).testResults.failed
      = t.testResults.passed + t.testResults.failed + ops.length) ∧
    ((applyOps t ops).testResults.failures.length + t.testResults.failed
      = t.testResults.failures.length + (applyOps t ops).testResults.failed) ∧
    (∃ extra, (applyOps t ops).testResults.failures
      = t.testResults.failures ++ extra) ∧
    (t.testResults.passed ≤ (applyOps t ops).testResults.passed) ∧
    (t.testResults.failed ≤ (applyOps t ops).testResults.failed) := by
  induction ops generalizing t with
  | nil => exact ⟨rfl, rfl, ⟨[], by simp [applyOps]⟩, le_refl _, le_refl _⟩
  | cons op rest ih =>
    have hstep := applyOp_cases t op
    have hih := ih (applyOp t op)
    have hrw : applyOps t (op :: rest) = applyOps (applyOp t op) rest := rfl
    rw [hrw]
    rcases hstep with ⟨rec, hr⟩ | hr <;>
      rcases hih with ⟨h1, h2, ⟨extra, h3⟩, h4, h5⟩ <;>
      rw [hr] at h1 h2 h3 h4 h5 <;> simp at h1 h2 h3 h4 h5 ⊢
    · exact ⟨by omega, by omega,
        ⟨rec :: extra, by simpa using h3⟩, by omega, by omega⟩
    · exact ⟨by omega, by omega, ⟨extra, h3⟩, by omega, by omega⟩

/-- C3: after any sequence of assertion calls on a fresh Tester,
passed + failed equals the number of calls and failures.length equals
failed (one FailureRecord appended per failing assertion, in emission
order), and the results are never reset as the run extends: any longer
sequence of calls only appends failure records and only grows both
counters. -/
theorem claim_C3_results_invariant (ops : List AssertOp) :
    ((applyOps initTester ops).testResults.passed
        + (applyOps initTester ops).testResults.failed = ops.length) ∧
    ((applyOps initTester ops).testResults.failures.length
        = (applyOps initTester ops).testResults.failed) ∧
    (∀ more : List AssertOp,
      (∃ extra, (applyOps initTester (ops ++ more)).testResults.failures
        = (applyOps initTester ops).testResults.failures ++ extra) ∧
      (applyOps initTester ops).testResults.passed
        ≤ (applyOps initTester (ops ++ more)).testResults.passed ∧
      (applyOps initTester ops).testResults.failed
        ≤ (applyOps initTester (ops ++ more)).testResults.failed) := by
  have happ : ∀ (a b : List AssertOp) (t : Tester),
      applyOps t (a ++ b) = applyOps (applyOps t a) b := by
    intro a
    induction a with
    | nil => intro b t; rfl
    | cons op rest ih => intro b t; exact ih b (applyOp t op)
  obtain ⟨h1, h2, _, _, _⟩ := applyOps_inv ops initTester
  refine ⟨by simpa [initTester] using h1, by simpa [initTester] using h2,
    fun more => ?_⟩
  obtain ⟨_, _, hext, hp, hf⟩ := applyOps_inv more (applyOps initTester ops)
  rw [happ]
  exact ⟨hext, hp, hf⟩

/-- startsOf distributes over trace concatenation. -/
theorem startsOf_append (a b : List SEvent) :
    startsOf (a ++ b) = startsOf a ++ startsOf b := by
  induction a with
  | nil => rfl
  | cons e rest ih => cases e <;> simp [startsOf, ih]

/-- The overlap scan composes over trace concatenation. -/
theorem wfRun_append (a : List SEvent) (r : Bool) (b : List SEvent) :
    wfRun r (a ++ b) = (wfRun r a).bind (fun r2 => wfRun r2 b) := by
  induction a generalizing r with
  | nil => cases r <;> rfl
  | cons e rest ih => cases e <;> cases r <;> simp [wfRun, ih]

/-- Every scheduling occurrence preserves the scheduler invariant. -/
theorem stepS_preserves (q : List String) (s : SchedState) (st : SStep)
    (hs : SchedInv q s) : SchedInv q (stepS q s st) := by
  obtain ⟨h1, h2, h3, h4⟩ := hs
  cases st with
  | doneCall =>
    refine ⟨?_, ?_, h3, h4⟩
    · simpa [stepS, startsOf_append, startsOf] using h1
    · simp [stepS, wfRun_append, h2, wfRun]
  | tick crash =>
    by_cases hfin : s.finished = true
    · simpa [stepS, hfin] using ⟨h1, h2, h3, h4⟩
    · by_cases hrun : s.running = true
      · simpa [stepS, hfin, hrun] using ⟨h1, h2, h3, h4⟩
      · have hrunf : s.running = false := by
          cases hr : s.running
          · rfl
          · exact absurd hr hrun
        by_cases hcur : s.current = q.length
        · have hst : stepS q s (.tick crash)
              = { s with finished := true, trace := s.trace ++ [.render] } := by
            simp [stepS, hfin, hrun, hcur]
          refine ⟨?_, ?_, ?_, ?_⟩ <;> rw [hst]
          · simpa [startsOf_append, startsOf] using h1
          · simp [wfRun_append, h2, wfRun]
          · exact h3
          · intro _; exact hcur
        · have hlt : s.current < q.length := lt_of_le_of_ne h3 hcur
          have htake : q.take (s.current + 1)
              = q.take s.current ++ [q.getD s.current ""] := by
            rw [List.take_succ]
            have hget : q[s.current]? = some q[s.current] :=
              List.getElem?_eq_getElem hlt
            simp [List.getD, hget]
          cases crash
          · have hst : stepS q s (.tick false)
                = { s with
                    current := s.current + 1,
                    running := true,
                    trace := s.trace ++ [.start (q.getD s.current "")] } := by
              simp [stepS, hfin, hrun, hcur]
            refine ⟨?_, ?_, ?_, ?_⟩ <;> rw [hst]
            · simp [startsOf_append, startsOf, htake, h1]
            · simp [wfRun_append, h2, hrunf, wfRun]
            · simpa using hlt
            · intro hfin2
              simp at hfin2
              exact absurd hfin2 hfin
          · have hst : stepS q s (.tick true)
                = { s with
                    current := s.current + 1,
                    trace := s.trace
                      ++ [.start (q.getD s.current ""), .doneEv] } := by
              simp [stepS, hfin, hrun, hcur]
            refine ⟨?_, ?_, ?_, ?_⟩ <;> rw [hst]
            · simp [startsOf_append, startsOf, htake, h1]
            · simp [wfRun_append, h2, hrunf, wfRun]
            · simpa using hlt
            · intro hfin2
              simp at hfin2
              exact absurd hfin2 hfin

/-- The invariant holds along any run of the polling loop. -/
theorem runSched_inv (q : List String) (steps : List SStep) :
    SchedInv q (runSched q steps) := by
  have hbase : SchedInv q initSched := by
    refine ⟨by simp [initSched, startsOf], rfl, by simp [initSched], ?_⟩
    intro h
    simp [initSched] at h
  have hgen : ∀ (l : List SStep) (s : SchedState), SchedInv q s →
      SchedInv q (l.foldl (stepS q) s) := by
    intro l
    induction l with
    | nil => intro s hs; exact hs
    | cons st rest ih =>
      intro s hs
      exact ih (stepS q s st) (stepS_preserves q s st hs)
  exact hgen steps initSched hbase

/-- C1: for every queue of discovered suite files and every
interleaving of polling ticks (including ticks whose suite crashes
synchronously and is contained by fail + done) with out-of-band done()
calls, the files started form exactly the first current entries of the
queue in discovery order (so no file is started twice and none is
skipped), the trace never starts a suite while another is still running
- idle status resumes only through a done event - and when the
scheduler reaches the finished state every discovered file has been
started exactly once. -/
theorem claim_C1_sched_sequential (q : List String) (steps : List SStep) :
    startsOf (runSched q steps).trace = q.take (runSched q steps).current ∧
    wfRun false (runSched q steps).trace = some (runSched q steps).running ∧
    (runSched q steps).current ≤ q.length ∧
    ((runSched q steps).finished = true →
      startsOf (runSched q steps).trace = q) := by
  obtain ⟨h1, h2, h3, h4⟩ := runSched_inv q steps
  refine ⟨h1, h2, h3, fun hfin => ?_⟩
  rw [h1, h4 hfin, List.take_length]

/-- Witness for C1: a two-file queue driven through a normal first
suite, a crashing second suite and a final render tick starts exactly
the two files in order. -/
theorem claim_C1_witness :
    startsOf (runSched ["a.js", "b.js"]
      [.tick false, .doneCall, .tick true, .tick false]).trace
      = ["a.js", "b.js"] := by
  have h := claim_C1_sched_sequential ["a.js", "b.js"]
    [.tick false, .doneCall, .tick true, .tick false]
  exact h.2.2.2 (by decide)

/-- The warning bars drawn over the arguments never contain a runTest
event. -/
theorem runTest_not_in_warnEvents (args : List PathArg) (f : String) :
    RunEv.runTestEv f ∉ warnEvents args := by
  induction args with
  | nil => simp [warnEvents]
  | cons a rest ih =>
    cases a <;> simp [warnEvents, ih]

/-- C7, counterexample: on a run whose discovery resolves to no test
file, the synchronous body of runSuites emits the no-tests banner and
calls exit(1), but the claim that no polling loop is started is false:
the casper.exit(1) statement is not followed by a return, so execution
falls through to the setInterval registration, which appears in the
trace after the exit event. -/
theorem claim_C7_counterexample :
    runSuitesSync [.missing "x"]
      = .ok [.warnMissing "x", .barNoTests, .exitEv 1, .intervalStart] ∧
    RunEv.intervalStart
      ∈ [RunEv.warnMissing "x", .barNoTests, .exitEv 1, .intervalStart] := by
  exact ⟨rfl, by simp⟩

/-- C7, amended: with at least one argument and an empty discovery
result, the synchronous body of runSuites emits the distinct no-tests
banner followed by exit(1) and executes no suite; however the
setInterval registration is still reached after the exit call (there is
no early return), so the polling loop is registered even on this
path. -/
theorem claim_C7_amended (args : List PathArg) (hne : args ≠ [])
    (hempty : resolveArgs args = []) :
    runSuitesSync args
      = .ok (warnEvents args
          ++ [.barNoTests, .exitEv 1, .intervalStart]) ∧
    (∀ f, RunEv.runTestEv f
      ∉ warnEvents args ++ [.barNoTests, .exitEv 1, .intervalStart]) := by
  constructor
  · have hlen : ¬ args.length = 0 := by
      cases args
      · exact absurd rfl hne
      · simp
    simp [runSuitesSync, hlen, hempty]
  · intro f
    simp [runTest_not_in_warnEvents args f]

/-- Witness for C7 at the concrete argument list with one missing
path. -/
theorem claim_C7_witness :
    runSuitesSync [PathArg.missing "x"]
      = .ok (warnEvents [PathArg.missing "x"]
          ++ [.barNoTests, .exitEv 1, .intervalStart]) :=
  (claim_C7_amended [PathArg.missing "x"] (by simp) rfl).1

/-- C8, counterexample: on exTree the code returns the sibling file
/t/b.js first and the earlier-listed subdirectory content after it,
while the claimed in-place depth-first expansion puts /t/sub/a.js
first; the two orders differ. -/
theorem claim_C8_counterexample :
    findTestFiles exTree = ["/t/b.js", "/t/sub/a.js"] ∧
    specResolveDir exTree = ["/t/sub/a.js", "/t/b.js"] ∧
    findTestFiles exTree ≠ specResolveDir exTree := by
  refine ⟨by decide, by decide, by decide⟩

/-- Every path returned by findTestFiles passes the runnable-extension
check (the final filter of the directory case). -/
theorem findTestFiles_js (tr : FSTree) :
    ∀ x ∈ findTestFiles tr, isJsFile x = true := by
  cases tr with
  | file p => simp [findTestFiles]
  | dir p entries =>
    intro x hx
    rw [findTestFiles] at hx
    exact (List.mem_filter.mp hx).2

/-- Every path accumulated from the subdirectory recursions passes the
runnable-extension check. -/
theorem findTestFilesAux_js (l : List FSTree) :
    ∀ x ∈ findTestFilesAux l, isJsFile x = true := by
  induction l with
  | nil => simp [findTestFilesAux]
  | cons e rest ih =>
    intro x hx
    rw [findTestFilesAux] at hx
    rcases List.mem_append.mp hx with hx1 | hx2
    · by_cases hd : isDirNode e = true
      · exact findTestFiles_js e x (by simpa [hd] using hx1)
      · simp [hd] at hx1
    · exact ih x hx2

/-- The directory case of findTestFiles, with the final filter pushed
through the concatenation: the level paths are filtered, the recursive
results pass the filter unchanged. -/
theorem findTestFiles_dir_eq (p : String) (entries : List FSTree) :
    findTestFiles (.dir p entries)
      = (entries.map nodePath).filter isJsFile ++ findTestFilesAux entries := by
  rw [findTestFiles, List.filter_append,
    List.filter_eq_self.mpr (findTestFilesAux_js entries)]

/-- Listing-level comparison of the code with the in-place depth-first
resolution of the spec: on a well-formed listing the filtered level
paths together with the appended subdirectory recursions are a
permutation of the in-place expansion. -/
theorem findTestFilesAux_perm :
    (l : List FSTree) → wfTreeList l = true →
    ((((l.map nodePath).filter isJsFile) ++ findTestFilesAux l).Perm
      (specResolveList l))
  | [], _ => by simp [findTestFilesAux, specResolveList]
  | .file p1 :: rest, h => by
    rw [wfTreeList] at h
    simp only [Bool.and_eq_true] at h
    obtain ⟨he, hrest⟩ := h
    have ihrest := findTestFilesAux_perm rest hrest
    rw [findTestFilesAux, specResolveList]
    rw [specResolveDir]
    cases hjs : isJsFile p1 with
    | true =>
      simp only [List.map_cons, nodePath, isDirNode, List.filter_cons, hjs,
        if_pos trivial, Bool.false_eq_true, if_false, List.nil_append,
        List.cons_append]
      exact List.Perm.cons p1 ihrest
    | false =>
      simp only [List.map_cons, nodePath, isDirNode, List.filter_cons, hjs,
        Bool.false_eq_true, if_false, List.nil_append]
      exact ihrest
  | .dir p2 e2 :: rest, h => by
    rw [wfTreeList] at h
    simp only [Bool.and_eq_true] at h
    obtain ⟨he, hrest⟩ := h
    have ihrest := findTestFilesAux_perm rest hrest
    rw [findTestFilesAux, specResolveList]
    rw [wfTree] at he
    simp only [Bool.and_eq_true, Bool.not_eq_true'] at he
    obtain ⟨hp2, he2⟩ := he
    have hsub : (findTestFiles (.dir p2 e2)).Perm
        (specResolveDir (.dir p2 e2)) := by
      rw [findTestFiles_dir_eq, specResolveDir]
      exact findTestFilesAux_perm e2 he2
    simp only [List.map_cons, nodePath, isDirNode, if_pos rfl,
      List.filter_cons, hp2, Bool.false_eq_true, if_false]
    exact List.Perm.trans (List.perm_append_comm_assoc _ _ _)
      (List.Perm.append hsub ihrest)
termination_by l _ => sizeOf l
decreasing_by
  all_goals simp_wf
  all_goals omega

/-- C8, amended: for a directory whose subtree is well formed (no
directory carries a runnable-script name), the resolved list holds
exactly the files of the claimed in-place depth-first expansion, but in
a different order: each directory contributes its own file entries
first, in listing order, and the recursive resolutions of its
subdirectories are appended after all sibling entries rather than
expanded in place; manually specified files keep their argument order
relative to each other. -/
theorem claim_C8_amended (p : String) (entries : List FSTree)
    (paths : List String) (h : wfTreeList entries = true) :
    (findTestFiles (.dir p entries)).Perm (specResolveDir (.dir p entries)) ∧
    findTestFiles (.dir p entries)
      = (entries.map nodePath).filter isJsFile ++ findTestFilesAux entries ∧
    resolveArgs (paths.map PathArg.fileArg) = paths := by
  refine ⟨?_, findTestFiles_dir_eq p entries, ?_⟩
  · rw [findTestFiles_dir_eq, specResolveDir]
    exact findTestFilesAux_perm entries h
  · induction paths with
    | nil => rfl
    | cons q rest ih => simp [resolveArgs, ih]

/-- Witness for C8 at the concrete subtree exTree and a two-file
argument list. -/
theorem claim_C8_witness :
    (findTestFiles (.dir "/t" [.dir "/t/sub" [.file "/t/sub/a.js"],
        .file "/t/b.js"])).Perm
      (specResolveDir (.dir "/t" [.dir "/t/sub" [.file "/t/sub/a.js"],
        .file "/t/b.js"])) ∧
    resolveArgs [PathArg.fileArg "x.js", PathArg.fileArg "y.js"]
      = ["x.js", "y.js"] := by
  have h := claim_C8_amended "/t" [.dir "/t/sub" [.file "/t/sub/a.js"],
    .file "/t/b.js"] ["x.js", "y.js"] (by decide)
  exact ⟨h.1, h.2.2⟩

/-- Unfolding of testEquals on two numbers: strict equality of the
numeric values. -/
theorem teq_num (a b : Int) : testEquals (.num a) (.num b) = (a == b) := by
  rw [testEquals.eq_def]
  rfl

/-- Unfolding of testEquals on two strings. -/
theorem teq_str (a b : String) : testEquals (.str a) (.str b) = (a == b) := by
  rw [testEquals.eq_def]
  rfl

/-- Unfolding of testEquals on two functions: source-text comparison. -/
theorem teq_fn (a b : String) : testEquals (.fn a) (.fn b) = (a == b) := by
  rw [testEquals.eq_def]
  rfl

/-- Differing refined type tags give false immediately. -/
theorem teq_tag_ne (v1 v2 : JSValue)
    (h : betterTypeOf v1 ≠ betterTypeOf v2) : testEquals v1 v2 = false := by
  rw [testEquals.eq_def]
  have hcond : (betterTypeOf v1 != betterTypeOf v2) = true := bne_iff_ne.mpr h
  rw [hcond]
  rfl

/-- Unfolding of testEquals on two plain objects: the tag check and the
isFunction check fall through to the key-count guard and the key
loop. -/
theorem teq_obj (f1 f2 : List (String × JSValue)) :
    testEquals (.obj f1) (.obj f2)
      = ((f1.length == f2.length) && testEqualsFields f1 f2) := by
  rw [testEquals]
  simp [betterTypeOf, isFunctionV]

/-- Unfolding of testEquals on two arrays. -/
theorem teq_arr (xs ys : List JSValue) :
    testEquals (.arr xs) (.arr ys)
      = ((xs.length == ys.length) && testEqualsList xs ys) := by
  rw [testEquals]
  simp [betterTypeOf, isFunctionV]

/-- The key loop of testEquals in quantifier form. -/
theorem testEqualsFields_spec (f1 f2 : List (String × JSValue)) :
    testEqualsFields f1 f2
      = f1.all (fun q => testEquals q.2 (lookup f2 q.1)) := by
  induction f1 with
  | nil => rfl
  | cons q rest ih =>
    obtain ⟨k, x⟩ := q
    rw [testEqualsFields]
    simp [ih]

/-- The index loop of testEquals on one array against itself is the
elementwise self-comparison. -/
theorem testEqualsList_self (xs : List JSValue)
    (h : ∀ x ∈ xs, testEquals x x = true) : testEqualsList xs xs = true := by
  induction xs with
  | nil => rfl
  | cons x rest ih =>
    rw [testEqualsList]
    simp only [List.headD_cons, List.tail_cons, Bool.and_eq_true]
    exact ⟨h x (by simp), ih (fun y hy => h y (by simp [hy]))⟩

/-- keysFresh means every binding key differs from k. -/
theorem keysFresh_ne (k : String) (f : List (String × JSValue))
    (h : keysFresh k f = true) : ∀ q ∈ f, q.1 ≠ k := by
  induction f with
  | nil => simp
  | cons p rest ih =>
    rw [keysFresh] at h
    simp only [Bool.and_eq_true, bne_iff_ne] at h
    intro q hq
    rcases List.mem_cons.mp hq with hq1 | hq2
    · rw [hq1]; exact h.1
    · exact ih h.2 q hq2

/-- Lookup of the head key returns the head value. -/
theorem lookup_cons_self (q : String × JSValue)
    (rest : List (String × JSValue)) : lookup (q :: rest) q.1 = q.2 := by
  simp [lookup, List.find?_cons]

/-- With pairwise distinct keys, lookup of a binding key returns that
binding value. -/
theorem lookup_eq_of_mem (f : List (String × JSValue))
    (h : nodupKeys f = true) : ∀ q ∈ f, lookup f q.1 = q.2 := by
  induction f with
  | nil => simp
  | cons p rest ih =>
    rw [nodupKeys] at h
    simp only [Bool.and_eq_true] at h
    obtain ⟨hfresh, hrest⟩ := h
    intro q hq
    rcases List.mem_cons.mp hq with hq1 | hq2
    · rw [hq1]; exact lookup_cons_self p rest
    · have hne : q.1 ≠ p.1 := keysFresh_ne p.1 rest hfresh q hq2
      have hhd : (p.1 == q.1) = false :=
        beq_eq_false_iff_ne.mpr (fun hh => hne hh.symm)
      have hstep : lookup (p :: rest) q.1 = lookup rest q.1 := by
        simp [lookup, List.find?_cons, hhd]
      rw [hstep]
      exact ih hrest q hq2

/-- A defined lookup result betrays a present key. -/
theorem mem_keys_of_lookup (f : List (String × JSValue)) (k : String)
    (h : lookup f k ≠ JSValue.undefined) : k ∈ f.map Prod.fst := by
  unfold lookup at h
  cases hf : f.find? (fun p => p.1 == k) with
  | none => rw [hf] at h; simp at h
  | some q =>
    have hq := List.mem_of_find?_eq_some hf
    have hk : q.1 = k := by simpa using List.find?_some hf
    exact hk ▸ List.mem_map_of_mem Prod.fst hq

/-- A present key has a first binding, and lookup returns its value. -/
theorem lookup_mem_keys (f : List (String × JSValue)) (k : String)
    (h : k ∈ f.map Prod.fst) :
    ∃ q ∈ f, q.1 = k ∧ lookup f k = q.2 := by
  have hex : ∃ x ∈ f, (fun p => p.1 == k) x = true := by
    obtain ⟨q, hq, hk⟩ := List.mem_map.mp h
    exact ⟨q, hq, by simp [hk]⟩
  have hsome := List.find?_isSome.mpr hex
  cases hf : f.find? (fun p => p.1 == k) with
  | none => rw [hf] at hsome; simp at hsome
  | some q =>
    exact ⟨q, List.mem_of_find?_eq_some hf,
      by simpa using List.find?_some hf, by simp [lookup, hf]⟩

/-- Only the undefined value carries the undefined type tag. -/
theorem betterTypeOf_undefined (v : JSValue)
    (h : betterTypeOf v = "undefined") : v = JSValue.undefined := by
  cases v <;> simp only [betterTypeOf] at h <;>
    first | rfl | exact absurd h (by decide)

/-- A value that testEquals declares equal to undefined is undefined
(the tag check rules everything else out before === runs). -/
theorem teq_undefined_right (x : JSValue)
    (h : testEquals x JSValue.undefined = true) : x = JSValue.undefined := by
  by_cases htag : betterTypeOf x = "undefined"
  · exact betterTypeOf_undefined x htag
  · have hne : betterTypeOf x ≠ betterTypeOf JSValue.undefined := by
      simpa [betterTypeOf] using htag
    rw [teq_tag_ne x JSValue.undefined hne] at h
    exact absurd h (by decide)

/-- Well-formedness of an array body passes to its elements. -/
theorem wfValList_mem (xs : List JSValue) (h : wfValList xs = true) :
    ∀ x ∈ xs, wfVal x = true := by
  induction xs with
  | nil => simp
  | cons x rest ih =>
    rw [wfValList] at h
    simp only [Bool.and_eq_true] at h
    intro y hy
    rcases List.mem_cons.mp hy with hy1 | hy2
    · rw [hy1]; exact h.1
    · exact ih h.2 y hy2

/-- Well-formedness of an object body passes to its values. -/
theorem wfValFields_mem (f : List (String × JSValue))
    (h : wfValFields f = true) : ∀ q ∈ f, wfVal q.2 = true := by
  induction f with
  | nil => simp
  | cons p rest ih =>
    rw [wfValFields] at h
    simp only [Bool.and_eq_true] at h
    intro q hq
    rcases List.mem_cons.mp hq with hq1 | hq2
    · rw [hq1]; exact h.1.2
    · exact ih h.2 q hq2

/-- Well-formedness of an object body includes pairwise distinct
keys. -/
theorem wfValFields_nodup (f : List (String × JSValue))
    (h : wfValFields f = true) : nodupKeys f = true := by
  induction f with
  | nil => rfl
  | cons p rest ih =>
    rw [wfValFields] at h
    simp only [Bool.and_eq_true] at h
    rw [nodupKeys]
    simp only [Bool.and_eq_true]
    exact ⟨h.1.1, ih h.2⟩

/-- C5, counterexample: the claim says testEquals(a, a) is true for
every non-cyclic a; the non-cyclic value NaN refutes it, because the
comparator bottoms out in NaN === NaN, which is false. -/
theorem claim_C5_counterexample :
    testEquals JSValue.nan JSValue.nan = false := by decide

/-- C5, amended: testEquals(a, a) is true for every non-cyclic a that
denotes a genuine JS value containing no NaN (wfVal: NaN-free, each
object level with pairwise distinct own keys). -/
theorem claim_C5_amended :
    (v : JSValue) → wfVal v = true → testEquals v v = true
  | .null, _ => by decide
  | .undefined, _ => by decide
  | .bool b, _ => by cases b <;> decide
  | .num n, _ => by
      rw [teq_num]
      simp
  | .nan, h => by simp [wfVal] at h
  | .str s, _ => by
      rw [teq_str]
      simp
  | .fn s, _ => by
      rw [teq_fn]
      simp
  | .arr xs, h => by
      rw [teq_arr]
      have hw : wfValList xs = true := by rw [wfVal] at h; exact h
      have hall : ∀ x ∈ xs, testEquals x x = true := fun x hx =>
        claim_C5_amended x (wfValList_mem xs hw x hx)
      simp [testEqualsList_self xs hall]
  | .obj f, h => by
      rw [teq_obj, testEqualsFields_spec]
      have hw : wfValFields f = true := by rw [wfVal] at h; exact h
      have hnd := wfValFields_nodup f hw
      simp only [beq_self_eq_true, Bool.true_and, List.all_eq_true]
      intro q hq
      rw [lookup_eq_of_mem f hnd q hq]
      exact claim_C5_amended q.2 (wfValFields_mem f hw q hq)
termination_by v _ => sizeOf v
decreasing_by
  · simp_wf
    have := List.sizeOf_lt_of_mem hx
    omega
  · simp_wf
    have h1 := List.sizeOf_lt_of_mem hq
    rcases q with ⟨k, x⟩
    simp at h1 ⊢
    omega

/-- Witness for C5 at a concrete nested well-formed value. -/
theorem claim_C5_witness :
    wfVal (JSValue.obj [("a", .arr [.num 1, .str "s"]), ("b", .bool true)])
      = true ∧
    testEquals
      (JSValue.obj [("a", .arr [.num 1, .str "s"]), ("b", .bool true)])
      (JSValue.obj [("a", .arr [.num 1, .str "s"]), ("b", .bool true)])
      = true :=
  ⟨by decide, claim_C5_amended
    (JSValue.obj [("a", .arr [.num 1, .str "s"]), ("b", .bool true)])
    (by decide)⟩

/-- nodupKeys gives the Nodup of the key list. -/
theorem nodupKeys_nodup (f : List (String × JSValue))
    (h : nodupKeys f = true) : (f.map Prod.fst).Nodup := by
  induction f with
  | nil => simp
  | cons p rest ih =>
    rw [nodupKeys] at h
    simp only [Bool.and_eq_true] at h
    simp only [List.map_cons, List.nodup_cons]
    constructor
    · intro hmem
      obtain ⟨q, hq, hkey⟩ := List.mem_map.mp hmem
      exact keysFresh_ne p.1 rest h.1 q hq hkey
    · exact ih h.2

/-- C4, counterexample: the claim reads testEquals on plain objects as
requiring every key present in one object to exist in the other; the
objects with a single undefined-valued key a respectively b refute it:
the comparator looks up the absent key, obtains undefined, finds it
strictly equal to the stored undefined value and answers true, although
neither key exists in the other object. -/
theorem claim_C4_counterexample :
    testEquals (.obj [("a", JSValue.undefined)])
      (.obj [("b", JSValue.undefined)]) = true ∧
    ¬ specObjEq [("a", JSValue.undefined)] [("b", JSValue.undefined)] := by
  constructor
  · decide
  · intro hs
    obtain ⟨hlen, hk⟩ := hs
    have h := hk "a" (Or.inl (by simp))
    have hb : ("a" : String)
        ∈ ([("b", JSValue.undefined)].map Prod.fst) := h.2.1
    simp only [List.map_cons, List.map_nil, List.mem_singleton] at hb
    exact absurd hb (by decide)

/-- C4, amended: for plain objects with pairwise distinct own keys
whose first-object values are all defined (not undefined), the claim
holds as stated: testEquals is true iff the objects have the same
number of own keys and every key present in one exists in the other
with recursively equal values, key order being irrelevant.  A key bound
to undefined is indistinguishable from an absent key for the
comparator, which is what the counterexample exploits. -/
theorem claim_C4_amended (f1 f2 : List (String × JSValue))
    (h1 : nodupKeys f1 = true)
    (hu : ∀ q ∈ f1, q.2 ≠ JSValue.undefined) :
    (testEquals (.obj f1) (.obj f2) = true ↔ specObjEq f1 f2) := by
  constructor
  · intro ht
    rw [teq_obj, testEqualsFields_spec] at ht
    simp only [Bool.and_eq_true, List.all_eq_true, beq_iff_eq] at ht
    obtain ⟨hlen, hall⟩ := ht
    have hsub : f1.map Prod.fst ⊆ f2.map Prod.fst := by
      intro k hk
      obtain ⟨q, hq, hqk, hlook⟩ := lookup_mem_keys f1 k hk
      have hteq := hall q hq
      rw [hqk] at hteq
      have hqne := hu q hq
      have hlk : lookup f2 k ≠ JSValue.undefined := by
        intro hud
        rw [hud] at hteq
        exact hqne (teq_undefined_right q.2 hteq)
      exact mem_keys_of_lookup f2 k hlk
    have hperm : (f1.map Prod.fst).Perm (f2.map Prod.fst) := by
      apply List.Subperm.perm_of_length_le
      · exact List.subperm_of_subset (nodupKeys_nodup f1 h1) hsub
      · simp [hlen]
    refine ⟨hlen, fun k hk => ?_⟩
    have hk1 : k ∈ f1.map Prod.fst := by
      rcases hk with hka | hkb
      · exact hka
      · exact hperm.mem_iff.mpr hkb
    have hk2 : k ∈ f2.map Prod.fst := hperm.mem_iff.mp hk1
    obtain ⟨q, hq, hqk, hlook⟩ := lookup_mem_keys f1 k hk1
    refine ⟨hk1, hk2, ?_⟩
    rw [hlook]
    have hteq := hall q hq
    rw [hqk] at hteq
    exact hteq
  · intro hs
    obtain ⟨hlen, hk⟩ := hs
    rw [teq_obj, testEqualsFields_spec]
    simp only [Bool.and_eq_true, List.all_eq_true, beq_iff_eq]
    refine ⟨hlen, fun q hq => ?_⟩
    have hkmem : q.1 ∈ f1.map Prod.fst := List.mem_map_of_mem Prod.fst hq
    obtain ⟨_, _, hteq⟩ := hk q.1 (Or.inl hkmem)
    have hl1 := lookup_eq_of_mem f1 h1 q hq
    rw [hl1] at hteq
    exact hteq

/-- Witness for C4 at two concrete two-key objects listing the same
bindings in opposite order. -/
theorem claim_C4_witness :
    specObjEq [("a", JSValue.num 1), ("b", JSValue.num 2)]
      [("b", JSValue.num 2), ("a", JSValue.num 1)] := by
  have h := claim_C4_amended [("a", JSValue.num 1), ("b", JSValue.num 2)]
    [("b", JSValue.num 2), ("a", JSValue.num 1)] (by decide)
    (by
      intro q hq
      simp only [List.mem_cons, List.not_mem_nil, or_false] at hq
      rcases hq with rfl | rfl <;> simp)
  exact h.mp (by decide)

end CasperTester
